import Mathlib

/-!
Verification of the streaming CSV reader of the br-cid10-csv module.

The embedding works on decoded text as `List Char` (the source fixes a
single-byte latin1 encoding, so one byte is one character).  The chunk
assembly callback `read`, the promise executor `nextRowsQueue`, the
record-generation loop and the per-table column getters are translated
from `src/index.ts`.  The asynchronous generator `cidTableStream` is
modelled over the cooperative schedule in which every `setImmediate`
rescheduling of the wait lets exactly the next pending source event
(`data` chunk, `end` or `error`) fire, which is the schedule the module
runs under with an actively pulling consumer.
-/

namespace BrCid10Csv

set_option autoImplicit false

/-- The `LINEBRK` constant of `cidTableStream`: the three-character
line terminator sequence of the CSV tables. -/
def LINEBRK : List Char := [';', '\r', '\n']

/-- Index of the last occurrence of `pat` in `s`, as computed by the JS
`String.lastIndexOf` for a nonempty search string: `some i` when `i` is
the greatest position at which `pat` occurs, `none` when it does not
occur at all. -/
def lastIndexOf (pat : List Char) : List Char → Option Nat
  | [] => if pat.isPrefixOf ([] : List Char) then some 0 else none
  | c :: rest =>
    match lastIndexOf pat rest with
    | some i => some (i + 1)
    | none => if pat.isPrefixOf (c :: rest) then some 0 else none

/-- Fuel-driven worker for `splitOn`; the fuel bounds the number of
characters consumed, making the recursion structural (and hence
computable by the kernel). -/
def splitGo (pat : List Char) : Nat → List Char → List (List Char)
  | _, [] => [[]]
  | 0, s => [s]
  | fuel + 1, c :: rest =>
    if pat ≠ [] ∧ pat.isPrefixOf (c :: rest) then
      [] :: splitGo pat fuel (rest.drop (pat.length - 1))
    else
      match splitGo pat fuel rest with
      | [] => [[c]]
      | r :: rs => (c :: r) :: rs

/-- The JS `String.split` for a nonempty separator sequence, on
character lists: `s` is cut at every occurrence of `pat`, scanning from
the left.  (The JS empty-separator behaviour differs but is never
exercised: the module only splits on the literals `LINEBRK` and `';'`.) -/
def splitOn (pat : List Char) (s : List Char) : List (List Char) :=
  splitGo pat s.length s

/-- State owned by the `read` callback of `cidTableStream`: the
incomplete-line `buffer` and the queue `rowsQueue` of complete-row
batches. -/
structure ReadState where
  buffer : List Char
  rowsQueue : List (List Char)

/-- The `read` data callback of `cidTableStream`: concatenate the chunk
onto the buffer; if the combined buffer contains the terminator, push
everything before its last occurrence as one batch onto the queue and
keep only the remainder, otherwise just keep the combined buffer. -/
def read (st : ReadState) (chunk : List Char) : ReadState :=
  let buffer := st.buffer ++ chunk
  match lastIndexOf LINEBRK buffer with
  | some e =>
    { buffer := buffer.drop (e + LINEBRK.length)
      rowsQueue := st.rowsQueue ++ [buffer.take e] }
  | none => { buffer := buffer, rowsQueue := st.rowsQueue }

/-- Folding the `read` callback over the whole sequence of chunks the
source delivers, from the initial state (empty buffer, empty queue). -/
def feedAll (chunks : List (List Char)) : ReadState :=
  chunks.foldl read { buffer := [], rowsQueue := [] }

/-- Terminal event of the underlying file stream: the `end` event or the
`error` event (the error payload abstracted as a string). -/
inductive StreamTermination where
  | ended : StreamTermination
  | errored (e : String) : StreamTermination

/-- Outcome of one execution of the promise executor `nextRowsQueue`:
rejection with the stream error, resolution with the queued batches,
rescheduling via `setImmediate` (modelled as a suspension during which
the next source event is delivered), or rejection with the `SKIPERR`
sentinel. -/
inductive WaitResult where
  | rejectErr (e : String) : WaitResult
  | resolveQueue (q : List (List Char)) : WaitResult
  | suspend : WaitResult
  | rejectSentinel : WaitResult

/-- The promise executor `nextRowsQueue` of `cidTableStream`: it checks
the stream error first, then a nonempty queue, then whether the stream
is still running (reschedule), and otherwise rejects with the `SKIPERR`
sentinel. -/
def nextRowsQueue (streamError : Option String) (rowsQueue : List (List Char))
    (streamEnd : Bool) : WaitResult :=
  match streamError with
  | some e => .rejectErr e
  | none =>
    if rowsQueue.length > 0 then .resolveQueue rowsQueue
    else if !streamEnd then .suspend
    else .rejectSentinel

/-- Innermost loop of the generator body: the rows of one batch are
either yielded or, exactly once for the first row observed, skipped. -/
def yieldRows : List (List Char) → Bool → List (List Char) × Bool
  | [], skip => ([], skip)
  | _ :: rows, true => yieldRows rows false
  | row :: rows, false =>
    let pr := yieldRows rows false
    (row :: pr.1, pr.2)

/-- Loop of the generator body over one resolved queue: every batch is
split on `LINEBRK` and its rows processed in order, threading the skip
flag. -/
def yieldQueue : List (List Char) → Bool → List (List Char) × Bool
  | [], skip => ([], skip)
  | b :: bs, skip =>
    let pr := yieldRows (splitOn LINEBRK b) skip
    let pr' := yieldQueue bs pr.2
    (pr.1 ++ pr'.1, pr'.2)

/-- Whole state of one `cidTableStream` invocation: the source events
still pending (`pending` chunks, then the `terminal` event), the stream
flags, the read state shared with the data callback, and the loop
state. -/
structure GenState where
  pending : List (List Char)
  terminal : Option StreamTermination
  streamEnd : Bool
  streamError : Option String
  rs : ReadState
  skip : Bool
  breakLoop : Bool

/-- The record-generation loop of `cidTableStream` together with the
try/catch around it and the final error check: returns the raw rows the
generator yields and the error it raises to the caller, if any.  The
`suspend` branch delivers the next pending source event, the
`rejectSentinel` branch is the catch clause swallowing `SKIPERR`. -/
def runLoop (st : GenState) : List (List Char) × Option String :=
  if st.breakLoop ∨ st.streamError.isSome then
    ([], st.streamError)
  else
    match h : nextRowsQueue st.streamError st.rs.rowsQueue st.streamEnd with
    | .rejectErr e => ([], some e)
    | .resolveQueue q =>
      let pr := yieldQueue q st.skip
      let rest := runLoop { st with rs := { buffer := st.rs.buffer, rowsQueue := [] }
                                    skip := pr.2
                                    breakLoop := st.rs.buffer.isEmpty && st.streamEnd }
      (pr.1 ++ rest.1, rest.2)
    | .suspend =>
      match hp : st.pending with
      | chunk :: more => runLoop { st with pending := more, rs := read st.rs chunk }
      | [] =>
        match ht : st.terminal with
        | some .ended => runLoop { st with terminal := none, streamEnd := true }
        | some (.errored e) => runLoop { st with terminal := none, streamError := some e }
        | none => ([], st.streamError)
    | .rejectSentinel => ([], st.streamError)
termination_by
  (st.pending.length + (if st.terminal.isSome then 1 else 0), st.rs.rowsQueue.length)
decreasing_by
  · apply Prod.Lex.right
    simp only [nextRowsQueue] at h
    rcases hse : st.streamError with _ | e
    · rw [hse] at h
      by_cases hq : st.rs.rowsQueue.length > 0
      · simpa using hq
      · simp [hq] at h
        rcases hend : st.streamEnd <;> simp [hend] at h
    · rw [hse] at h
      simp at h
  · apply Prod.Lex.left
    simp [hp]
  · apply Prod.Lex.left
    simp [hp, ht]
  · apply Prod.Lex.left
    simp [hp, ht]

/-- The generic asynchronous generator `cidTableStream`, as a function
of the chunk sequence the source delivers and its terminal event, under
the modelled cooperative schedule: it returns the yielded raw rows (the
strings handed to the row factory) and the error raised to the caller.
All reading state is initialised afresh: empty buffer, empty queue, the
skip flag set. -/
def cidTableStream (chunks : List (List Char)) (t : StreamTermination) :
    List (List Char) × Option String :=
  runLoop { pending := chunks, terminal := some t, streamEnd := false,
            streamError := none, rs := { buffer := [], rowsQueue := [] },
            skip := true, breakLoop := false }

/-- Error the generator raises for each terminal source event under the
modelled schedule: none after `end`, the stream error after `error`. -/
def termErr : StreamTermination → Option String
  | .ended => none
  | .errored e => some e

/-- The `CidRecord` default row reader: its `$columns` field, the row
split on the bare `';'` field separator. -/
def cidRecordColumns (row : List Char) : List (List Char) :=
  splitOn [';'] row

/-- Terminator-first concatenation a batch queue accounts for: every
queued batch consumed exactly one trailing terminator from the input. -/
def joinBatches (qs : List (List Char)) : List Char :=
  (qs.map (fun b => b ++ LINEBRK)).flatten

/-- Terminator-separated join of the queued batches, with no trailing
terminator. -/
def interJoin : List (List Char) → List Char
  | [] => []
  | [b] => b
  | b :: bs => b ++ LINEBRK ++ interJoin bs

/-- Characters admitted by the `[IVXLCDM]` class of the regexes in the
`Cid10Chapter` getters. -/
def romanChars : List Char := ['I', 'V', 'X', 'L', 'C', 'D', 'M']

/-- Match of the anchored pattern `^([IVXLCDM]+)\.` (the capture group
of the regex in `Cid10Chapter.roman`): `some` capture exactly when the
string starts with one or more roman characters followed by a dot. -/
def romanDotCapture (s : List Char) : Option (List Char) :=
  let r := s.takeWhile (fun c => romanChars.contains c)
  if r ≠ [] ∧ (s.drop r.length).head? = some '.' then some r else none

/-- Removal of the anchored `^[IVXLCDM]+\.\s*` pattern, as done by the
`replace` call of `Cid10Chapter.abbreviation` (JS `\s` modelled with
`Char.isWhitespace`). -/
def stripRomanDot (s : List Char) : List Char :=
  match romanDotCapture s with
  | some r => (s.drop (r.length + 1)).dropWhile (fun c => c.isWhitespace)
  | none => s

/-- The column index `Cid10Chapter.ABBREVIATION`. -/
def chapterAbbrIdx : Nat := 4

/-- The `Cid10Chapter.abbreviation` getter; `none` models the TypeError
the getter throws when column 4 is absent (in JS, `replace` is then
invoked on `undefined`). -/
def chapterAbbreviation (cols : List (List Char)) : Option (List Char) :=
  match cols[chapterAbbrIdx]? with
  | some s => some (stripRomanDot s)
  | none => none

/-- The `Cid10Chapter.roman` getter; the outer `none` models the
TypeError the getter throws when column 4 is absent, the inner option is
the result of the optional chaining on `match`. -/
def chapterRoman (cols : List (List Char)) : Option (Option (List Char)) :=
  match cols[chapterAbbrIdx]? with
  | some s => some (romanDotCapture s)
  | none => none

/-! Basic facts about `List.isPrefixOf` and `List.drop`. -/

theorem isPfx_iff (p : List Char) : ∀ s : List Char,
    p.isPrefixOf s = true ↔ ∃ t, s = p ++ t := by
  induction p with
  | nil => intro s; simp [List.isPrefixOf]
  | cons a as ih =>
    intro s
    cases s with
    | nil => simp [List.isPrefixOf]
    | cons b bs =>
      simp only [List.isPrefixOf, Bool.and_eq_true, beq_iff_eq, ih, List.cons_append,
        List.cons.injEq]
      constructor
      · rintro ⟨rfl, t, rfl⟩
        exact ⟨t, rfl, rfl⟩
      · rintro ⟨t, rfl, rfl⟩
        exact ⟨rfl, t, rfl⟩

theorem isPfx_append_right (p s t : List Char) (h : p.isPrefixOf s = true) :
    p.isPrefixOf (s ++ t) = true := by
  rcases (isPfx_iff p s).1 h with ⟨u, rfl⟩
  exact (isPfx_iff p _).2 ⟨u ++ t, by simp⟩

theorem drop_append_add (X : List Char) : ∀ (l : List Char) (k : Nat),
    (X ++ l).drop (X.length + k) = l.drop k := by
  induction X with
  | nil => simp
  | cons c X ih =>
    intro l k
    have h : (c :: X).length + k = (X.length + k) + 1 := by simp; omega
    rw [h]
    simpa using ih l k

/-! Facts about `lastIndexOf`. -/

theorem lastIndexOf_none_pfx (p : List Char) : ∀ s : List Char,
    lastIndexOf p s = none → ∀ i, p.isPrefixOf (s.drop i) = false := by
  intro s
  induction s with
  | nil =>
    intro h i
    simp only [lastIndexOf] at h
    rcases hb : p.isPrefixOf ([] : List Char) with _ | _
    · simpa using hb
    · simp [hb] at h
  | cons c rest ih =>
    intro h i
    cases hr : lastIndexOf p rest with
    | some j => simp [lastIndexOf, hr] at h
    | none =>
      simp only [lastIndexOf, hr] at h
      cases i with
      | zero =>
        rcases hb : p.isPrefixOf (c :: rest) with _ | _
        · simpa using hb
        · simp [hb] at h
      | succ i => simpa using ih hr i

theorem lastIndexOf_some_pfx (p : List Char) : ∀ (s : List Char) (e : Nat),
    lastIndexOf p s = some e → p.isPrefixOf (s.drop e) = true := by
  intro s
  induction s with
  | nil =>
    intro e h
    simp only [lastIndexOf] at h
    rcases hb : p.isPrefixOf ([] : List Char) with _ | _
    · simp [hb] at h
    · simp [hb] at h
      subst h
      simpa using hb
  | cons c rest ih =>
    intro e h
    cases hr : lastIndexOf p rest with
    | some j =>
      simp only [lastIndexOf, hr, Option.some.injEq] at h
      subst h
      simpa using ih j hr
    | none =>
      simp only [lastIndexOf, hr] at h
      rcases hb : p.isPrefixOf (c :: rest) with _ | _
      · simp [hb] at h
      · simp [hb] at h
        simp [← h, hb]

theorem lastIndexOf_some_max (p : List Char) (hp : p ≠ []) : ∀ (s : List Char) (e : Nat),
    lastIndexOf p s = some e → ∀ j, p.isPrefixOf (s.drop j) = true → j ≤ e := by
  intro s
  induction s with
  | nil =>
    intro e h
    rcases p with _ | ⟨a, as⟩
    · exact absurd rfl hp
    · simp [lastIndexOf, List.isPrefixOf] at h
  | cons c rest ih =>
    intro e h j hj
    cases hr : lastIndexOf p rest with
    | some i =>
      simp only [lastIndexOf, hr, Option.some.injEq] at h
      subst h
      cases j with
      | zero => omega
      | succ j =>
        have := ih i hr j (by simpa using hj)
        omega
    | none =>
      simp only [lastIndexOf, hr] at h
      cases j with
      | zero => omega
      | succ j =>
        have : p.isPrefixOf (rest.drop j) = false := lastIndexOf_none_pfx p rest hr j
        rw [List.drop_succ_cons] at hj
        rw [this] at hj
        exact absurd hj (by simp)

theorem linebrk_ne_nil : LINEBRK ≠ [] := by simp [LINEBRK]

/-- Decomposition of a string at a position where `p` occurs. -/
theorem pfx_decomp (p s : List Char) (e : Nat) (h : p.isPrefixOf (s.drop e) = true) :
    s = s.take e ++ p ++ s.drop (e + p.length) := by
  rcases (isPfx_iff p (s.drop e)).1 h with ⟨t, ht⟩
  have h1 : t = s.drop (e + p.length) := by
    have h2 : (s.drop e).drop p.length = t := by rw [ht]; simp
    rw [List.drop_drop] at h2
    exact h2.symm
  calc s = s.take e ++ s.drop e := by simp
    _ = s.take e ++ (p ++ t) := by rw [ht]
    _ = s.take e ++ p ++ s.drop (e + p.length) := by rw [h1, List.append_assoc]

/-! Facts about the `read` callback. -/

theorem read_of_none (st : ReadState) (chunk : List Char)
    (h : lastIndexOf LINEBRK (st.buffer ++ chunk) = none) :
    read st chunk = { buffer := st.buffer ++ chunk, rowsQueue := st.rowsQueue } := by
  simp [read, h]

theorem read_of_some (st : ReadState) (chunk : List Char) (e : Nat)
    (h : lastIndexOf LINEBRK (st.buffer ++ chunk) = some e) :
    read st chunk =
      { buffer := (st.buffer ++ chunk).drop (e + LINEBRK.length)
        rowsQueue := st.rowsQueue ++ [(st.buffer ++ chunk).take e] } := by
  simp [read, h]

theorem read_fields_none (b : List Char) (q : List (List Char)) (chunk : List Char)
    (h : lastIndexOf LINEBRK (b ++ chunk) = none) :
    read { buffer := b, rowsQueue := q } chunk =
      { buffer := b ++ chunk, rowsQueue := q } := by
  simp [read, h]

theorem read_fields_some (b : List Char) (q : List (List Char)) (chunk : List Char) (e : Nat)
    (h : lastIndexOf LINEBRK (b ++ chunk) = some e) :
    read { buffer := b, rowsQueue := q } chunk =
      { buffer := (b ++ chunk).drop (e + LINEBRK.length)
        rowsQueue := q ++ [(b ++ chunk).take e] } := by
  simp [read, h]

theorem read_buffer_clean (st : ReadState) (chunk : List Char) :
    ∀ i, LINEBRK.isPrefixOf ((read st chunk).buffer.drop i) = false := by
  intro i
  cases h : lastIndexOf LINEBRK (st.buffer ++ chunk) with
  | none =>
    rw [read_of_none st chunk h]
    exact lastIndexOf_none_pfx LINEBRK (st.buffer ++ chunk) h i
  | some e =>
    rw [read_of_some st chunk e h]
    rcases hb : LINEBRK.isPrefixOf ((((st.buffer ++ chunk).drop
        (e + LINEBRK.length)).drop i)) with _ | _
    · rfl
    · exfalso
      rw [List.drop_drop] at hb
      have := lastIndexOf_some_max LINEBRK linebrk_ne_nil (st.buffer ++ chunk) e h _ hb
      simp [LINEBRK] at this
      omega

theorem read_queue_split (b : List Char) (q : List (List Char)) (chunk : List Char) :
    read { buffer := b, rowsQueue := q } chunk =
      { buffer := (read { buffer := b, rowsQueue := [] } chunk).buffer
        rowsQueue := q ++ (read { buffer := b, rowsQueue := [] } chunk).rowsQueue } := by
  cases h : lastIndexOf LINEBRK (b ++ chunk) <;> simp [read, h]

theorem foldl_read_queue (cs : List (List Char)) : ∀ (b : List Char) (q : List (List Char)),
    List.foldl read { buffer := b, rowsQueue := q } cs =
      { buffer := (List.foldl read { buffer := b, rowsQueue := [] } cs).buffer
        rowsQueue := q ++ (List.foldl read { buffer := b, rowsQueue := [] } cs).rowsQueue } := by
  induction cs with
  | nil => simp
  | cons c cs ih =>
    intro b q
    simp only [List.foldl_cons]
    rw [read_queue_split b q c]
    rw [ih (read { buffer := b, rowsQueue := [] } c).buffer
      (q ++ (read { buffer := b, rowsQueue := [] } c).rowsQueue)]
    rw [ih (read { buffer := b, rowsQueue := [] } c).buffer
      (read { buffer := b, rowsQueue := [] } c).rowsQueue]
    simp

theorem foldl_read_buffer (cs : List (List Char)) (b : List Char) (q : List (List Char)) :
    (List.foldl read { buffer := b, rowsQueue := q } cs).buffer =
      (List.foldl read { buffer := b, rowsQueue := [] } cs).buffer := by
  rw [foldl_read_queue cs b q]

theorem foldl_read_rows (cs : List (List Char)) (b : List Char) (q : List (List Char)) :
    (List.foldl read { buffer := b, rowsQueue := q } cs).rowsQueue =
      q ++ (List.foldl read { buffer := b, rowsQueue := [] } cs).rowsQueue := by
  rw [foldl_read_queue cs b q]

theorem foldl_read_clean (cs : List (List Char)) : ∀ st : ReadState,
    (∀ i, LINEBRK.isPrefixOf (st.buffer.drop i) = false) →
    ∀ i, LINEBRK.isPrefixOf ((List.foldl read st cs).buffer.drop i) = false := by
  induction cs with
  | nil => intro st h; simpa using h
  | cons c cs ih =>
    intro st _ i
    simp only [List.foldl_cons]
    exact ih (read st c) (read_buffer_clean st c) i

/-! Equations and facts for `splitOn`. -/

theorem drop_len_le (n : Nat) (l : List Char) : (l.drop n).length ≤ l.length := by
  rw [List.length_drop]
  omega

theorem splitGo_succ (p : List Char) (f : Nat) (c : Char) (rest : List Char) :
    splitGo p (f + 1) (c :: rest) =
      if p ≠ [] ∧ p.isPrefixOf (c :: rest) = true then
        [] :: splitGo p f (rest.drop (p.length - 1))
      else
        match splitGo p f rest with
        | [] => [[c]]
        | r :: rs => (c :: r) :: rs := rfl

theorem splitGo_irrel (p : List Char) : ∀ f₁ f₂ (s : List Char),
    s.length ≤ f₁ → s.length ≤ f₂ → splitGo p f₁ s = splitGo p f₂ s := by
  intro f₁
  induction f₁ with
  | zero =>
    intro f₂ s h1 _
    cases s with
    | nil => cases f₂ <;> rfl
    | cons c rest => simp at h1
  | succ f ih =>
    intro f₂ s h1 h2
    cases s with
    | nil => cases f₂ <;> rfl
    | cons c rest =>
      cases f₂ with
      | zero => simp at h2
      | succ g =>
        have hf : rest.length ≤ f := by simp at h1; omega
        have hg : rest.length ≤ g := by simp at h2; omega
        rw [splitGo_succ, splitGo_succ]
        by_cases hc : p ≠ [] ∧ p.isPrefixOf (c :: rest) = true
        · rw [if_pos hc, if_pos hc,
            ih g (rest.drop (p.length - 1)) (le_trans (drop_len_le _ _) hf)
              (le_trans (drop_len_le _ _) hg)]
        · rw [if_neg hc, if_neg hc, ih g rest hf hg]

theorem splitOn_nil (p : List Char) : splitOn p [] = [[]] := rfl

theorem splitOn_cons_pos (p : List Char) (c : Char) (rest : List Char)
    (h1 : p ≠ []) (h2 : p.isPrefixOf (c :: rest) = true) :
    splitOn p (c :: rest) = [] :: splitOn p (rest.drop (p.length - 1)) := by
  unfold splitOn
  simp only [List.length_cons]
  rw [splitGo_succ, if_pos ⟨h1, h2⟩]
  congr 1
  exact splitGo_irrel p rest.length (rest.drop (p.length - 1)).length _
    (drop_len_le _ _) le_rfl

theorem splitOn_cons_neg (p : List Char) (c : Char) (rest : List Char)
    (h : ¬(p ≠ [] ∧ p.isPrefixOf (c :: rest) = true)) (r : List Char) (rs : List (List Char))
    (hr : splitOn p rest = r :: rs) :
    splitOn p (c :: rest) = (c :: r) :: rs := by
  unfold splitOn at hr ⊢
  simp only [List.length_cons]
  rw [splitGo_succ, if_neg h, hr]

theorem splitOn_ne_nil (p : List Char) : ∀ s : List Char, splitOn p s ≠ [] := by
  intro s
  induction s with
  | nil => simp [splitOn_nil]
  | cons c rest ih =>
    by_cases hc : p ≠ [] ∧ p.isPrefixOf (c :: rest) = true
    · rw [splitOn_cons_pos p c rest hc.1 hc.2]
      simp
    · rcases hsp : splitOn p rest with _ | ⟨r, rs⟩
      · exact absurd hsp ih
      · rw [splitOn_cons_neg p c rest hc r rs hsp]
        simp

theorem splitOn_single (p : List Char) : ∀ s : List Char,
    (∀ i, p.isPrefixOf (s.drop i) = false) → splitOn p s = [s] := by
  intro s
  induction s with
  | nil => intro _; exact splitOn_nil p
  | cons c rest ih =>
    intro h
    have h0 : p.isPrefixOf (c :: rest) = false := by simpa using h 0
    have hrest : splitOn p rest = [rest] := ih (fun i => by simpa using h (i + 1))
    rw [splitOn_cons_neg p c rest (by simp [h0]) rest [] hrest]

theorem linebrk_pfx (Y : List Char) : LINEBRK.isPrefixOf (LINEBRK ++ Y) = true :=
  (isPfx_iff _ _).2 ⟨Y, rfl⟩

/-- No occurrence of the terminator can straddle the boundary between a
string that does not start with the terminator and a following
terminator: the first characters of `LINEBRK` are pairwise distinct
enough for that. -/
theorem linebrk_no_straddle (c : Char) (X' Y : List Char)
    (hpfx : LINEBRK.isPrefixOf (c :: X') = false) :
    LINEBRK.isPrefixOf (c :: (X' ++ LINEBRK ++ Y)) = false := by
  rcases hb : LINEBRK.isPrefixOf (c :: (X' ++ LINEBRK ++ Y)) with _ | _
  · rfl
  · exfalso
    rcases (isPfx_iff _ _).1 hb with ⟨t, ht⟩
    cases X' with
    | nil =>
      simp [LINEBRK] at ht
    | cons d X2 =>
      cases X2 with
      | nil =>
        simp [LINEBRK] at ht
      | cons e X3 =>
        simp only [List.cons_append, List.append_assoc, LINEBRK, List.cons.injEq] at ht
        obtain ⟨rfl, rfl, rfl, -⟩ := ht
        simp [LINEBRK, List.isPrefixOf] at hpfx

/-- Splitting on the terminator distributes over concatenation at a
terminator boundary (no occurrence can straddle the boundary). -/
theorem splitOn_term_append : ∀ (n : Nat) (X Y : List Char), X.length ≤ n →
    splitOn LINEBRK (X ++ LINEBRK ++ Y) = splitOn LINEBRK X ++ splitOn LINEBRK Y := by
  have base : ∀ Y : List Char, splitOn LINEBRK (LINEBRK ++ Y) = [] :: splitOn LINEBRK Y := by
    intro Y
    have h := splitOn_cons_pos LINEBRK ';' ('\r' :: '\n' :: Y) linebrk_ne_nil
      (by simpa [LINEBRK] using linebrk_pfx Y)
    simpa [LINEBRK] using h
  intro n
  induction n with
  | zero =>
    intro X Y hlen
    have hx : X = [] := by
      cases X with
      | nil => rfl
      | cons c X' => simp at hlen
    subst hx
    simpa [splitOn_nil] using base Y
  | succ n ih =>
    intro X Y hlen
    cases X with
    | nil => simpa [splitOn_nil] using base Y
    | cons c X' =>
      rcases hb : LINEBRK.isPrefixOf (c :: X') with _ | _
      · have hb2 : LINEBRK.isPrefixOf (c :: (X' ++ LINEBRK ++ Y)) = false :=
          linebrk_no_straddle c X' Y hb
        obtain ⟨r, rs, hr⟩ : ∃ r rs, splitOn LINEBRK X' = r :: rs := by
          rcases hsp : splitOn LINEBRK X' with _ | ⟨r, rs⟩
          · exact absurd hsp (splitOn_ne_nil _ _)
          · exact ⟨r, rs, rfl⟩
        have hX'len : X'.length ≤ n := by simp at hlen; omega
        have hLrec : splitOn LINEBRK (X' ++ LINEBRK ++ Y) =
            r :: (rs ++ splitOn LINEBRK Y) := by
          rw [ih X' Y hX'len, hr]
          simp
        calc splitOn LINEBRK ((c :: X') ++ LINEBRK ++ Y)
            = splitOn LINEBRK (c :: (X' ++ LINEBRK ++ Y)) := by simp
          _ = (c :: r) :: (rs ++ splitOn LINEBRK Y) :=
              splitOn_cons_neg _ c _
                (by intro hcon; have h2 := hcon.2; rw [hb2] at h2; simp at h2)
                r (rs ++ splitOn LINEBRK Y) hLrec
          _ = splitOn LINEBRK (c :: X') ++ splitOn LINEBRK Y := by
              rw [splitOn_cons_neg _ c X'
                (by intro hcon; have h2 := hcon.2; rw [hb] at h2; simp at h2) r rs hr]
              simp
      · obtain ⟨t, ht⟩ := (isPfx_iff _ _).1 hb
        obtain ⟨rfl, rfl⟩ : c = ';' ∧ X' = '\r' :: '\n' :: t := by
          simpa [LINEBRK] using ht
        have htlen : t.length ≤ n := by simp at hlen; omega
        have hpfxL : LINEBRK.isPrefixOf (';' :: ('\r' :: '\n' :: (t ++ LINEBRK ++ Y))) = true := by
          simp [LINEBRK, List.isPrefixOf]
        have hpfxR : LINEBRK.isPrefixOf (';' :: ('\r' :: '\n' :: t)) = true := by
          simp [LINEBRK, List.isPrefixOf]
        calc splitOn LINEBRK ((';' :: '\r' :: '\n' :: t) ++ LINEBRK ++ Y)
            = splitOn LINEBRK (';' :: ('\r' :: '\n' :: (t ++ LINEBRK ++ Y))) := by simp
          _ = [] :: splitOn LINEBRK (('\r' :: '\n' :: (t ++ LINEBRK ++ Y)).drop
                (LINEBRK.length - 1)) := splitOn_cons_pos _ _ _ linebrk_ne_nil hpfxL
          _ = [] :: splitOn LINEBRK (t ++ LINEBRK ++ Y) := by simp [LINEBRK]
          _ = [] :: (splitOn LINEBRK t ++ splitOn LINEBRK Y) := by rw [ih t Y htlen]
          _ = splitOn LINEBRK (';' :: '\r' :: '\n' :: t) ++ splitOn LINEBRK Y := by
              rw [splitOn_cons_pos _ _ _ linebrk_ne_nil hpfxR]
              simp [LINEBRK]

/-! Facts about `joinBatches`, `interJoin` and the content invariant of
the assembly loop. -/

theorem joinBatches_nil : joinBatches [] = [] := rfl

theorem joinBatches_cons (b : List Char) (bs : List (List Char)) :
    joinBatches (b :: bs) = b ++ LINEBRK ++ joinBatches bs := by
  simp [joinBatches]

theorem joinBatches_append (q₁ q₂ : List (List Char)) :
    joinBatches (q₁ ++ q₂) = joinBatches q₁ ++ joinBatches q₂ := by
  simp [joinBatches]

theorem interJoin_one (b : List Char) : interJoin [b] = b := rfl

theorem interJoin_cons₂ (b b' : List Char) (bs : List (List Char)) :
    interJoin (b :: b' :: bs) = b ++ LINEBRK ++ interJoin (b' :: bs) := rfl

theorem joinBatches_eq_inter : ∀ Q : List (List Char), Q ≠ [] →
    joinBatches Q = interJoin Q ++ LINEBRK := by
  intro Q
  induction Q with
  | nil => intro h; exact absurd rfl h
  | cons b bs ih =>
    intro _
    cases bs with
    | nil => simp [joinBatches, interJoin_one]
    | cons b' bs' =>
      rw [joinBatches_cons, ih (by simp), interJoin_cons₂]
      simp

theorem splitOn_interJoin : ∀ Q : List (List Char), Q ≠ [] →
    splitOn LINEBRK (interJoin Q) = (Q.map (splitOn LINEBRK)).flatten := by
  intro Q
  induction Q with
  | nil => intro h; exact absurd rfl h
  | cons b bs ih =>
    intro _
    cases bs with
    | nil => simp [interJoin_one]
    | cons b' bs' =>
      rw [interJoin_cons₂, splitOn_term_append (b.length) b (interJoin (b' :: bs')) le_rfl,
        ih (by simp)]
      simp

/-- Invariant of the assembly loop: the batches pushed so far, each
followed by one consumed terminator, with the retained buffer appended,
reconstruct the input fed so far. -/
theorem feed_content : ∀ (cs : List (List Char)) (b : List Char),
    joinBatches ((List.foldl read { buffer := b, rowsQueue := [] } cs).rowsQueue) ++
      (List.foldl read { buffer := b, rowsQueue := [] } cs).buffer = b ++ cs.flatten := by
  intro cs
  induction cs with
  | nil => simp [joinBatches]
  | cons c cs ih =>
    intro b
    simp only [List.foldl_cons, List.flatten_cons]
    cases h : lastIndexOf LINEBRK (b ++ c) with
    | none =>
      rw [read_fields_none b [] c h]
      rw [ih (b ++ c)]
      simp
    | some e =>
      rw [read_fields_some b [] c e h]
      simp only [List.nil_append]
      rw [foldl_read_rows cs ((b ++ c).drop (e + LINEBRK.length)) [(b ++ c).take e],
        foldl_read_buffer cs ((b ++ c).drop (e + LINEBRK.length)) [(b ++ c).take e]]
      rw [joinBatches_append, joinBatches_cons, joinBatches_nil]
      have hih := ih ((b ++ c).drop (e + LINEBRK.length))
      have hdec := pfx_decomp LINEBRK (b ++ c) e (lastIndexOf_some_pfx LINEBRK (b ++ c) e h)
      rw [← List.append_assoc b c cs.flatten]
      conv_rhs => rw [hdec]
      simp only [List.append_assoc, List.nil_append, List.append_nil]
      rw [hih]

theorem feedAll_clean (chunks : List (List Char)) :
    ∀ i, LINEBRK.isPrefixOf ((feedAll chunks).buffer.drop i) = false := by
  intro i
  unfold feedAll
  exact foldl_read_clean chunks { buffer := [], rowsQueue := [] }
    (fun j => by simp [List.isPrefixOf, LINEBRK]) i

theorem feedAll_content (chunks : List (List Char)) :
    joinBatches ((feedAll chunks).rowsQueue) ++ (feedAll chunks).buffer = chunks.flatten := by
  unfold feedAll
  simpa using feed_content chunks []

/-- Content-level description of all rows the pushed batches contain:
they are exactly the terminator-split of the whole input, minus the
trailing segment that never saw its terminator. -/
theorem rowsJoin_eq (chunks : List (List Char)) :
    (((feedAll chunks).rowsQueue).map (splitOn LINEBRK)).flatten =
      (splitOn LINEBRK chunks.flatten).dropLast := by
  have hcontent := feedAll_content chunks
  have hclean := feedAll_clean chunks
  rcases hQ : (feedAll chunks).rowsQueue with _ | ⟨q, qs⟩
  · rw [hQ] at hcontent
    rw [joinBatches_nil, List.nil_append] at hcontent
    rw [← hcontent]
    rw [splitOn_single LINEBRK (feedAll chunks).buffer hclean]
    simp
  · rw [hQ] at hcontent
    rw [joinBatches_eq_inter (q :: qs) (by simp)] at hcontent
    rw [← hcontent]
    rw [splitOn_term_append (interJoin (q :: qs)).length (interJoin (q :: qs))
      ((feedAll chunks).buffer) le_rfl]
    rw [splitOn_single LINEBRK (feedAll chunks).buffer hclean]
    rw [List.dropLast_concat]
    exact (splitOn_interJoin (q :: qs) (by simp)).symm

/-! Facts about the generator loops. -/

theorem yieldRows_false : ∀ l : List (List Char), yieldRows l false = (l, false) := by
  intro l
  induction l with
  | nil => rfl
  | cons r rs ih => simp [yieldRows, ih]

theorem yieldRows_true_cons (r : List Char) (rs : List (List Char)) :
    yieldRows (r :: rs) true = (rs, false) := by
  simp [yieldRows, yieldRows_false]

theorem yieldQueue_false : ∀ Q : List (List Char),
    yieldQueue Q false = ((Q.map (splitOn LINEBRK)).flatten, false) := by
  intro Q
  induction Q with
  | nil => rfl
  | cons b bs ih => simp [yieldQueue, yieldRows_false, ih]

theorem yieldQueue_true_fst : ∀ Q : List (List Char),
    (yieldQueue Q true).1 = ((Q.map (splitOn LINEBRK)).flatten).drop 1 := by
  intro Q
  cases Q with
  | nil => rfl
  | cons b bs =>
    obtain ⟨r, rs, hr⟩ : ∃ r rs, splitOn LINEBRK b = r :: rs := by
      rcases hsp : splitOn LINEBRK b with _ | ⟨r, rs⟩
      · exact absurd hsp (splitOn_ne_nil _ _)
      · exact ⟨r, rs, rfl⟩
    simp [yieldQueue, hr, yieldRows_true_cons, yieldQueue_false]

theorem yieldQueue_append : ∀ (q₁ q₂ : List (List Char)) (sk : Bool),
    yieldQueue (q₁ ++ q₂) sk =
      ((yieldQueue q₁ sk).1 ++ (yieldQueue q₂ (yieldQueue q₁ sk).2).1,
        (yieldQueue q₂ (yieldQueue q₁ sk).2).2) := by
  intro q₁
  induction q₁ with
  | nil => intro q₂ sk; simp [yieldQueue]
  | cons b bs ih =>
    intro q₂ sk
    simp [yieldQueue, ih]

theorem runLoop_deliver (pend : List (List Char)) (term : Option StreamTermination)
    (se : Bool) (b : List Char) (x : List Char) (xs : List (List Char)) (sk : Bool) :
    runLoop { pending := pend, terminal := term, streamEnd := se, streamError := none,
              rs := { buffer := b, rowsQueue := x :: xs }, skip := sk, breakLoop := false } =
      ((yieldQueue (x :: xs) sk).1 ++
        (runLoop { pending := pend, terminal := term, streamEnd := se, streamError := none,
                   rs := { buffer := b, rowsQueue := [] },
                   skip := (yieldQueue (x :: xs) sk).2,
                   breakLoop := b.isEmpty && se }).1,
        (runLoop { pending := pend, terminal := term, streamEnd := se, streamError := none,
                   rs := { buffer := b, rowsQueue := [] },
                   skip := (yieldQueue (x :: xs) sk).2,
                   breakLoop := b.isEmpty && se }).2) := by
  conv_lhs => rw [runLoop]
  simp only [Option.isSome_none, Bool.false_eq_true, or_self, if_false]
  split
  · rename_i e h
    simp [nextRowsQueue] at h
  · rename_i q h
    simp only [nextRowsQueue, List.length_cons, gt_iff_lt, Nat.succ_pos, if_true,
      WaitResult.resolveQueue.injEq] at h
    subst h
    rfl
  · rename_i h
    simp [nextRowsQueue] at h
  · rename_i h
    simp [nextRowsQueue] at h

theorem runLoop_suspend_chunk (c : List Char) (more : List (List Char))
    (term : Option StreamTermination) (b : List Char) (sk : Bool) :
    runLoop { pending := c :: more, terminal := term, streamEnd := false, streamError := none,
              rs := { buffer := b, rowsQueue := [] }, skip := sk, breakLoop := false } =
      runLoop { pending := more, terminal := term, streamEnd := false, streamError := none,
                rs := read { buffer := b, rowsQueue := [] } c, skip := sk,
                breakLoop := false } := by
  conv_lhs => rw [runLoop]
  simp only [Option.isSome_none, Bool.false_eq_true, or_self, if_false]
  split
  · rename_i e h
    simp [nextRowsQueue] at h
  · rename_i q h
    simp [nextRowsQueue] at h
  · rfl
  · rename_i h
    simp [nextRowsQueue] at h

theorem runLoop_end_event (b : List Char) (sk : Bool) :
    runLoop { pending := [], terminal := some .ended, streamEnd := false, streamError := none,
              rs := { buffer := b, rowsQueue := [] }, skip := sk, breakLoop := false } =
      runLoop { pending := [], terminal := none, streamEnd := true, streamError := none,
                rs := { buffer := b, rowsQueue := [] }, skip := sk, breakLoop := false } := by
  conv_lhs => rw [runLoop]
  simp only [Option.isSome_none, Bool.false_eq_true, or_self, if_false]
  split
  · rename_i e h
    simp [nextRowsQueue] at h
  · rename_i q h
    simp [nextRowsQueue] at h
  · rfl
  · rename_i h
    simp [nextRowsQueue] at h

theorem runLoop_error_event (e : String) (b : List Char) (sk : Bool) :
    runLoop { pending := [], terminal := some (.errored e), streamEnd := false,
              streamError := none, rs := { buffer := b, rowsQueue := [] }, skip := sk,
              breakLoop := false } =
      runLoop { pending := [], terminal := none, streamEnd := false, streamError := some e,
                rs := { buffer := b, rowsQueue := [] }, skip := sk, breakLoop := false } := by
  conv_lhs => rw [runLoop]
  simp only [Option.isSome_none, Bool.false_eq_true, or_self, if_false]
  split
  · rename_i e' h
    simp [nextRowsQueue] at h
  · rename_i q h
    simp [nextRowsQueue] at h
  · rfl
  · rename_i h
    simp [nextRowsQueue] at h

theorem runLoop_sentinel_exit (pend : List (List Char)) (term : Option StreamTermination)
    (b : List Char) (sk : Bool) :
    runLoop { pending := pend, terminal := term, streamEnd := true, streamError := none,
              rs := { buffer := b, rowsQueue := [] }, skip := sk, breakLoop := false } =
      ([], none) := by
  conv_lhs => rw [runLoop]
  simp only [Option.isSome_none, Bool.false_eq_true, or_self, if_false]
  split
  · rename_i e h
    simp [nextRowsQueue] at h
  · rename_i q h
    simp [nextRowsQueue] at h
  · rename_i h
    simp [nextRowsQueue] at h
  · rfl

theorem runLoop_error_exit (st : GenState) (e : String)
    (herr : st.streamError = some e) :
    runLoop st = ([], some e) := by
  rw [runLoop]
  rw [if_pos (Or.inr (by rw [herr]; rfl))]
  rw [herr]

/-- The record-generation loop consumes the current queue (if any), then
every pending chunk through the `read` callback, then the terminal
event; under the modelled schedule it yields the rows of every batch
ever queued, with the skip flag threaded, and finishes with the
terminal result. -/
theorem runLoop_run (cs : List (List Char)) : ∀ (b : List Char) (q : List (List Char))
    (sk : Bool) (t : StreamTermination),
    runLoop { pending := cs, terminal := some t, streamEnd := false, streamError := none,
              rs := { buffer := b, rowsQueue := q }, skip := sk, breakLoop := false } =
      ((yieldQueue (List.foldl read { buffer := b, rowsQueue := q } cs).rowsQueue sk).1,
        termErr t) := by
  induction cs with
  | nil =>
    have h0 : ∀ (b : List Char) (sk : Bool) (t : StreamTermination),
        runLoop { pending := [], terminal := some t, streamEnd := false, streamError := none,
                  rs := { buffer := b, rowsQueue := [] }, skip := sk, breakLoop := false } =
          ([], termErr t) := by
      intro b sk t
      cases t with
      | ended =>
        rw [runLoop_end_event b sk, runLoop_sentinel_exit [] none b sk]
        rfl
      | errored e =>
        rw [runLoop_error_event e b sk, runLoop_error_exit _ e rfl]
        rfl
    intro b q sk t
    cases q with
    | nil =>
      rw [h0 b sk t]
      rfl
    | cons x xs =>
      rw [runLoop_deliver [] (some t) false b x xs sk]
      simp only [Bool.and_false]
      rw [h0 b (yieldQueue (x :: xs) sk).2 t]
      simp [yieldQueue]
  | cons c cs ih =>
    have h0 : ∀ (b : List Char) (sk : Bool) (t : StreamTermination),
        runLoop { pending := c :: cs, terminal := some t, streamEnd := false,
                  streamError := none, rs := { buffer := b, rowsQueue := [] },
                  skip := sk, breakLoop := false } =
          ((yieldQueue (List.foldl read { buffer := b, rowsQueue := [] } (c :: cs)).rowsQueue
              sk).1, termErr t) := by
      intro b sk t
      rw [runLoop_suspend_chunk c cs (some t) b sk]
      exact ih (read { buffer := b, rowsQueue := [] } c).buffer
        (read { buffer := b, rowsQueue := [] } c).rowsQueue sk t
    intro b q sk t
    cases q with
    | nil => exact h0 b sk t
    | cons x xs =>
      rw [runLoop_deliver (c :: cs) (some t) false b x xs sk]
      simp only [Bool.and_false]
      rw [h0 b (yieldQueue (x :: xs) sk).2 t]
      rw [foldl_read_rows (c :: cs) b (x :: xs)]
      rw [yieldQueue_append (x :: xs)
        ((List.foldl read { buffer := b, rowsQueue := [] } (c :: cs)).rowsQueue) sk]

/-- One run of the whole generator, characterised through the assembly
state: all queued batches are split and yielded with the very first row
skipped, and the terminal event decides the error raised. -/
theorem cidTableStream_queue_eq (chunks : List (List Char)) (t : StreamTermination) :
    cidTableStream chunks t =
      ((yieldQueue (feedAll chunks).rowsQueue true).1, termErr t) := by
  unfold cidTableStream feedAll
  exact runLoop_run chunks [] [] true t

/-- Content-level characterisation of one run: the generator yields the
terminator-split of the whole content, without the trailing unterminated
segment and without the first (header) line. -/
theorem cidTableStream_eq (chunks : List (List Char)) (t : StreamTermination) :
    cidTableStream chunks t =
      (((splitOn LINEBRK chunks.flatten).dropLast).drop 1, termErr t) := by
  rw [cidTableStream_queue_eq, yieldQueue_true_fst, rowsJoin_eq]

theorem dropLast_drop_comm : ∀ l : List (List Char), (l.dropLast).drop 1 = (l.drop 1).dropLast := by
  intro l
  cases l with
  | nil => rfl
  | cons a l' =>
    cases l' with
    | nil => rfl
    | cons b t => rfl

/-! The claims. -/

/-- C1: for every file content and every way of splitting it into
chunks (including splits inside the three-character terminator), the
run of `cidTableStream` is identical to the run in which the whole
content arrives as a single chunk. -/
theorem cidTableStream_chunking_irrelevant (chunks : List (List Char)) :
    cidTableStream chunks .ended = cidTableStream [chunks.flatten] .ended := by
  rw [cidTableStream_eq, cidTableStream_eq]
  simp

/-- C2: for every input and every chunking, the rows yielded are exactly
the terminator-split physical lines of the file without its first line
(the header, which the skip flag discards) and without the trailing
unterminated segment; in particular the first physical line is never
handed to the row factory. -/
theorem cidTableStream_skips_first_line (chunks : List (List Char)) :
    (cidTableStream chunks .ended).1 =
      ((splitOn LINEBRK chunks.flatten).drop 1).dropLast := by
  rw [cidTableStream_eq]
  exact dropLast_drop_comm _

/-- C3: the `read` assembly step appends the chunk to the buffer; if the
combined buffer holds no terminator it becomes the new buffer and no
batch is pushed, and otherwise the combined buffer decomposes around the
last terminator occurrence, everything before it is appended to the
queue as one batch and the buffer is reset to exactly the
terminator-free remainder. -/
theorem read_assembles_last_terminator (st : ReadState) (chunk : List Char) :
    (lastIndexOf LINEBRK (st.buffer ++ chunk) = none →
      read st chunk = { buffer := st.buffer ++ chunk, rowsQueue := st.rowsQueue }) ∧
    (lastIndexOf LINEBRK (st.buffer ++ chunk) ≠ none →
      ∃ batch rest, st.buffer ++ chunk = batch ++ LINEBRK ++ rest ∧
        lastIndexOf LINEBRK rest = none ∧
        read st chunk = { buffer := rest, rowsQueue := st.rowsQueue ++ [batch] }) := by
  constructor
  · exact read_of_none st chunk
  · intro hne
    rcases he : lastIndexOf LINEBRK (st.buffer ++ chunk) with _ | e
    · exact absurd he hne
    · refine ⟨(st.buffer ++ chunk).take e, (st.buffer ++ chunk).drop (e + LINEBRK.length),
        ?_, ?_, ?_⟩
      · exact pfx_decomp LINEBRK (st.buffer ++ chunk) e (lastIndexOf_some_pfx _ _ e he)
      · rcases hr : lastIndexOf LINEBRK
            ((st.buffer ++ chunk).drop (e + LINEBRK.length)) with _ | j
        · rfl
        · exfalso
          have hpj := lastIndexOf_some_pfx _ _ j hr
          rw [List.drop_drop] at hpj
          have hle := lastIndexOf_some_max LINEBRK linebrk_ne_nil _ e he _ hpj
          rw [show LINEBRK.length = 3 from rfl] at hle
          omega
      · exact read_of_some st chunk e he

/-- C3 witness: a concrete buffer and chunk whose combination contains a
terminator. -/
theorem read_assembles_last_terminator_witness :
    (lastIndexOf LINEBRK (("x".toList : List Char) ++ "y;\r\nz".toList) ≠ none) ∧
    (∃ batch rest,
      ("x".toList : List Char) ++ "y;\r\nz".toList = batch ++ LINEBRK ++ rest ∧
      lastIndexOf LINEBRK rest = none ∧
      read { buffer := "x".toList, rowsQueue := [] } "y;\r\nz".toList =
        { buffer := rest, rowsQueue := [] ++ [batch] }) :=
  ⟨by decide,
    (read_assembles_last_terminator { buffer := "x".toList, rowsQueue := [] }
      "y;\r\nz".toList).2 (by decide)⟩

/-- C4: when the source errors after delivering its chunks, the
generator yields exactly the rows derivable from the batches those
chunks produced, then raises that error (exactly once, and even when the
queue is already empty). -/
theorem cidTableStream_error_after_batches (chunks : List (List Char)) (e : String) :
    cidTableStream chunks (.errored e) =
      (((((feedAll chunks).rowsQueue).map (splitOn LINEBRK)).flatten).drop 1, some e) := by
  rw [cidTableStream_queue_eq, yieldQueue_true_fst]
  rfl

/-- C5: a file whose last line lacks the trailing terminator yields all
complete terminator-delimited rows except the header, and the
unterminated tail is silently discarded at end of stream. -/
theorem cidTableStream_drops_unterminated_tail (chunks : List (List Char))
    (pre tl : List Char) (hsplit : chunks.flatten = pre ++ LINEBRK ++ tl)
    (hne : tl ≠ []) (hterm : lastIndexOf LINEBRK tl = none) :
    (cidTableStream chunks .ended).1 = (splitOn LINEBRK pre).drop 1 := by
  rw [cidTableStream_eq]
  rw [hsplit]
  rw [splitOn_term_append pre.length pre tl le_rfl]
  rw [splitOn_single LINEBRK tl (lastIndexOf_none_pfx LINEBRK tl hterm)]
  rw [List.dropLast_concat]

/-- C5 witness: a concrete file with one header, one complete row and an
unterminated trailing row. -/
theorem cidTableStream_drops_unterminated_tail_witness :
    (["h;\r\nr1;\r\nr2".toList].flatten = "h;\r\nr1".toList ++ LINEBRK ++ "r2".toList) ∧
    ("r2".toList ≠ ([] : List Char)) ∧
    (lastIndexOf LINEBRK "r2".toList = none) ∧
    (cidTableStream ["h;\r\nr1;\r\nr2".toList] .ended).1 =
      (splitOn LINEBRK "h;\r\nr1".toList).drop 1 :=
  ⟨by decide, by decide, by decide,
    cidTableStream_drops_unterminated_tail ["h;\r\nr1;\r\nr2".toList] "h;\r\nr1".toList
      "r2".toList (by decide) (by decide) (by decide)⟩

/-- C6: the `SKIPERR` sentinel is what the wait rejects with once the
stream has ended with nothing queued, yet it is never observable by the
caller: a run that ends normally raises no error at all, and the empty
file yields zero rows and no error. -/
theorem sentinel_not_observable :
    nextRowsQueue none [] true = WaitResult.rejectSentinel ∧
    (∀ chunks : List (List Char), (cidTableStream chunks .ended).2 = none) ∧
    cidTableStream [] .ended = ([], none) := by
  refine ⟨rfl, ?_, ?_⟩
  · intro chunks
    rw [cidTableStream_eq]
    rfl
  · rw [cidTableStream_eq]
    rfl

/-- C7: after every execution of the `read` callback, and hence after
feeding any sequence of chunks, the retained buffer contains no
occurrence of the full three-character terminator. -/
theorem buffer_never_holds_terminator :
    (∀ (st : ReadState) (chunk : List Char) (i : Nat),
      LINEBRK.isPrefixOf (((read st chunk).buffer).drop i) = false) ∧
    (∀ (chunks : List (List Char)) (i : Nat),
      LINEBRK.isPrefixOf (((feedAll chunks).buffer).drop i) = false) :=
  ⟨fun st chunk => read_buffer_clean st chunk, fun chunks => feedAll_clean chunks⟩

/-- C8: two independent runs over the same file content produce
identical results whatever the terminal event; all reading state is
local to each run (each invocation starts from its own fresh state), so
the runs cannot influence each other even when the content is delivered
in different chunks. -/
theorem independent_runs_agree (chunks₁ chunks₂ : List (List Char)) (t : StreamTermination)
    (h : chunks₁.flatten = chunks₂.flatten) :
    cidTableStream chunks₁ t = cidTableStream chunks₂ t := by
  rw [cidTableStream_eq, cidTableStream_eq, h]

/-- C8 witness: the same content delivered as one chunk and as two. -/
theorem independent_runs_agree_witness :
    (["ab".toList].flatten = (["a".toList, "b".toList] : List (List Char)).flatten) ∧
    cidTableStream ["ab".toList] .ended = cidTableStream ["a".toList, "b".toList] .ended :=
  ⟨by decide, independent_runs_agree _ _ _ (by decide)⟩

/-- C9: with the default `CidRecord` reader, the two-line input
`h1;h2;h3;⏎v1;v2;v3;⏎` yields exactly one row whose columns are
`v1`, `v2`, `v3`: the header is skipped, the terminator stripped, and
the line split on the bare semicolon with fields untouched. -/
theorem default_reader_single_row :
    ((cidTableStream ["h1;h2;h3;\r\nv1;v2;v3;\r\n".toList] .ended).1).map cidRecordColumns =
      [["v1".toList, "v2".toList, "v3".toList]] := by
  rw [cidTableStream_eq]
  decide

/-- C10: the `Cid10Chapter` getters are not total over arbitrary rows:
on the empty row the column sequence is a single empty field, column 4
is absent, and both `abbreviation` and `roman` throw (modelled as
`none`); on a well-formed row `abbreviation` strips the roman prefix. -/
theorem chapter_getters_not_total :
    cidRecordColumns "".toList = [[]] ∧
    chapterAbbreviation (cidRecordColumns "".toList) = none ∧
    chapterRoman (cidRecordColumns "".toList) = none ∧
    chapterAbbreviation (cidRecordColumns "1;A00;B99;Chapter;I.   Abbrev".toList) =
      some "Abbrev".toList := by
  decide

end BrCid10Csv
